import Mathlib

set_option maxRecDepth 80000
set_option synthInstance.maxHeartbeats 1000000

/-!
Verification development for the comment synchronizer in
src/terraform/tvm_bot/tvm_bot/github_commenter.py.

Strings are modelled as lists of characters (`List Char`).  The regular
expression used by `find_existing_body`,

  <!--bot-comment-([a-z][a-z-]+)-start-->([\S\s]*?)<!--bot-comment-([a-z-]+)-end-->

is modelled by an explicit scanner implementing the engine's semantics:
the scan tries each position from the left; a key group is matched
greedily (largest length whose continuation matches the literal tail,
which is unique for these patterns because the tails end in a character
that is outside the key character class); the content group is matched
lazily (shortest content whose continuation matches the end-marker
pattern); after a match the scan resumes at the end of the match.
Python `str.strip` is modelled over the ASCII whitespace characters.
-/

/-- Whitespace characters removed by Python `str.strip()` (ASCII range). -/
def pyIsSpace (c : Char) : Bool :=
  c = ' ' || c = '\t' || c = '\n' || c = '\r' || c = '\x0b' || c = '\x0c'

/-- Remove trailing characters satisfying `p`. -/
def dropTrail (p : Char → Bool) (s : List Char) : List Char :=
  ((s.reverse).dropWhile p).reverse

/-- Python `s.strip()`: remove leading and trailing whitespace. -/
def pyStrip (s : List Char) : List Char :=
  dropTrail pyIsSpace (s.dropWhile pyIsSpace)

/-- Characters of the set passed to `lstrip("* ")`. -/
def isStarSpace (c : Char) : Bool := c = '*' || c = ' '

/-- Python `s.lstrip("* ")`: remove every leading asterisk or space. -/
def lstripStarSpace (s : List Char) : List Char := s.dropWhile isStarSpace

/-- The regex class [a-z]. -/
def isAThroughZ (c : Char) : Bool := 'a' ≤ c && c ≤ 'z'

/-- The regex class [a-z-]: lowercase letters and hyphens. -/
def isKeyChar (c : Char) : Bool := isAThroughZ c || c = '-'

/-- The literal that opens every start and end marker. -/
def mark : List Char := "<!--bot-comment-".data

/-- The literal that closes a start marker, after the key. -/
def startTail : List Char := "-start-->".data

/-- The literal that closes an end marker, after the key. -/
def endTail : List Char := "-end-->".data

/-- BOT_COMMENT_START from the source. -/
def BOT_COMMENT_START : List Char := "<!---bot-comment-->".data

/-- WELCOME_TEXT from the source. -/
def WELCOME_TEXT : List Char :=
  ("Thanks for contributing to TVM! Please refer to the contributing " ++
   "guidelines https://tvm.apache.org/docs/contribute/ for useful information and tips. " ++
   "Please request code reviews from [Reviewers](" ++
   "https://github.com/apache/incubator-tvm/blob/master/CONTRIBUTORS.md#reviewers) by @-ing them in a comment.").data

/-- The fixed attribution footer appended by `_post_comment`. -/
def FOOTER_TEXT : List Char :=
  ("\n\n<sub>Generated by [tvm-bot](" ++
   "https://github.com/apache/tvm/blob/main/ci/README.md#github-actions)</sub>").data

/-- BotCommentBuilder.start_key. -/
def start_key (key : List Char) : List Char := mark ++ key ++ startTail

/-- BotCommentBuilder.end_key. -/
def end_key (key : List Char) : List Char := mark ++ key ++ endTail

/-- BotCommentBuilder.done_key. -/
def done_key (key : List Char) : List Char :=
  "<!--bot-item-".data ++ key ++ "-done-->".data

/-- The Item dataclass. -/
structure Item where
  key : List Char
  text : Option (List Char)
  is_done : Bool
deriving DecidableEq

/-- A pull-request comment as consumed by the builder: author login,
unique database id, and body text. -/
structure Comment where
  author : List Char
  databaseId : Nat
  body : List Char
deriving DecidableEq

instance {ε α : Type} [DecidableEq ε] [DecidableEq α] : DecidableEq (Except ε α) := fun x y =>
  match x, y with
  | .ok a, .ok b => decidable_of_iff (a = b) (by simp)
  | .error a, .error b => decidable_of_iff (a = b) (by simp)
  | .ok _, .error _ => isFalse (fun h => Except.noConfusion h)
  | .error _, .ok _ => isFalse (fun h => Except.noConfusion h)

/-- Remove `p` from the front of `s`; `none` when `s` does not start with `p`. -/
def stripLead : List Char → List Char → Option (List Char)
  | [], s => some s
  | _ :: _, [] => none
  | p :: ps, c :: cs => if c = p then stripLead ps cs else none

/-- Whether `s` starts with `p`. -/
def hasLead (p s : List Char) : Bool := (stripLead p s).isSome

/-- Whether `pat` occurs as a contiguous run anywhere in the second list:
Python's substring test `pat in s`. -/
def containsSeq (pat : List Char) : List Char → Bool
  | [] => hasLead pat []
  | c :: cs => hasLead pat (c :: cs) || containsSeq pat cs

/-- Length of the maximal leading run of key characters. -/
def keyRun : List Char → Nat
  | [] => 0
  | c :: cs => if isKeyChar c then keyRun cs + 1 else 0

/-- Greedy key-group matching: try group lengths from the counter downward
(never below `lo`, the minimal group length) until the literal `pat`
follows the group.  This is the regex engine's backtracking search for
`group · pat` where the group ranges over key characters. -/
def greedyFrom (pat : List Char) (s : List Char) (lo : Nat) : Nat → Option (Nat × List Char)
  | 0 =>
    if lo = 0 then (stripLead pat s).map (fun r => (0, r)) else none
  | t + 1 =>
    if t + 1 < lo then none
    else
      match stripLead pat (s.drop (t + 1)) with
      | some r => some (t + 1, r)
      | none => greedyFrom pat s lo t

/-- Match `([a-z-]+)-end-->` at the front of `s`. -/
def matchEndKey (s : List Char) : Option (Nat × List Char) :=
  greedyFrom endTail s 1 (keyRun s)

/-- Match the full end-marker pattern `<!--bot-comment-([a-z-]+)-end-->`
at the front of `s`, returning the key and the remainder. -/
def tryEndHere (s : List Char) : Option (List Char × List Char) :=
  match stripLead mark s with
  | none => none
  | some r =>
    match matchEndKey r with
    | none => none
    | some (t, rem) => some (r.take t, rem)

/-- Lazy content matching: find the shortest content after which the
end-marker pattern matches; return content, end key and remainder. -/
def findEnd : List Char → Option (List Char × List Char × List Char)
  | [] =>
    match tryEndHere [] with
    | some (k, rem) => some ([], k, rem)
    | none => none
  | c :: cs =>
    match tryEndHere (c :: cs) with
    | some (k, rem) => some ([], k, rem)
    | none =>
      match findEnd cs with
      | none => none
      | some (content, k, rem) => some (c :: content, k, rem)

/-- Attempt the whole section pattern at the front of `s`: the mark
literal, a greedy start key of shape [a-z][a-z-]+, the start tail,
lazy content, and an end marker.  Returns (start key, content, end key,
remainder after the match). -/
def matchAt (s : List Char) : Option (List Char × List Char × List Char × List Char) :=
  match stripLead mark s with
  | none => none
  | some r =>
    match r.head? with
    | none => none
    | some c =>
      if isAThroughZ c then
        match greedyFrom startTail r 2 (keyRun r) with
        | none => none
        | some (t, rem1) =>
          match findEnd rem1 with
          | none => none
          | some (content, ek, rem2) => some (r.take t, content, ek, rem2)
      else none

/-- One fuel unit is spent per scanned position, so fuel equal to the
length of the text always suffices. -/
def scanFuel : Nat → List Char → List (List Char × List Char × List Char)
  | 0, _ => []
  | fuel + 1, s =>
    match matchAt s with
    | some (sk, content, ek, rest) => (sk, content, ek) :: scanFuel fuel rest
    | none =>
      match s with
      | [] => []
      | _ :: cs => scanFuel fuel cs

/-- re.findall of the section regex over a comment body: all
non-overlapping matches, scanning left to right. -/
def scanBody (s : List Char) : List (List Char × List Char × List Char) :=
  scanFuel s.length s

/-- The content transformation applied to each matched section:
`text.strip().lstrip("* ")`. -/
def extractContent (raw : List Char) : List Char := lstripStarSpace (pyStrip raw)

/-- Insertion into the (insertion-ordered) Python dict of items: replace
in place when the key is present, append otherwise. -/
def dictInsert (m : List (List Char × Item)) (k : List Char) (v : Item) : List (List Char × Item) :=
  if m.any (fun p => p.1 = k) then
    m.map (fun p => if p.1 = k then (k, v) else p)
  else m ++ [(k, v)]

/-- Key lookup in the dict of items. -/
def dictLookup : List (List Char × Item) → List Char → Option Item
  | [], _ => none
  | (k', v) :: rest, k => if k' = k then some v else dictLookup rest k

/-- The match-processing loop of `find_existing_body`: raise on a
mismatched start/end key pair, otherwise store the extracted item. -/
def buildItems : List (List Char × List Char × List Char) → List (List Char × Item) →
    Except String (List (List Char × Item))
  | [], items => .ok items
  | (s, text, e) :: rest, items =>
    if s = e then
      buildItems rest (dictInsert items s
        { key := s, text := some (extractContent text),
          is_done := containsSeq (done_key s) (extractContent text) })
    else
      .error ("Malformed comment found: " ++ String.mk s ++
        " marker did not have matching end, found instead " ++ String.mk e)

/-- The section parser: the regex scan of `find_existing_body` together
with its match-processing loop, applied to a comment body. -/
def parseSections (body : List Char) : Except String (List (List Char × Item)) :=
  buildItems (scanBody body) []

/-- BotCommentBuilder.find_bot_comment: first comment authored by the bot
whose body contains BOT_COMMENT_START. -/
def find_bot_comment : List Comment → List Char → Option Comment
  | [], _ => none
  | c :: cs, bot =>
    if c.author = bot && containsSeq BOT_COMMENT_START c.body then some c
    else find_bot_comment cs bot

/-- BotCommentBuilder.find_existing_body: empty map when no bot comment
exists, otherwise the parsed section map of that comment's body. -/
def find_existing_body (comments : List Comment) (bot : List Char) :
    Except String (List (List Char × Item)) :=
  match find_bot_comment comments bot with
  | none => .ok []
  | some c => parseSections c.body

/-- BotCommentBuilder.is_done. -/
def is_done (comments : List Comment) (bot : List Char) (key : List Char) :
    Except String Bool :=
  match find_existing_body comments bot with
  | .error e => .error e
  | .ok body =>
    match dictLookup body key with
    | none => .ok false
    | some it => .ok it.is_done

/-- One rendered bullet line of `_post_comment`:
`start_key(key) + "\n * " + content.strip() + end_key(key)`. -/
def renderLine (key : List Char) (content : List Char) : List Char :=
  start_key key ++ "\n * ".data ++ pyStrip content ++ end_key key

/-- The rendering loop of `_post_comment`: items with absent text are
skipped, the rest are concatenated in map order. -/
def renderLines : List (List Char × Item) → List Char
  | [] => []
  | (key, it) :: rest =>
    match it.text with
    | none => renderLines rest
    | some content => renderLine key content ++ renderLines rest

/-- The full comment text produced by `_post_comment`. -/
def renderComment (body_items : List (List Char × Item)) : List Char :=
  BOT_COMMENT_START ++ "\n\n".data ++ WELCOME_TEXT ++ "\n\n".data ++
    renderLines body_items ++ FOOTER_TEXT

/-- The network action taken by `_post_comment`: nothing, one create
request, or one update request addressed by a comment database id. -/
inductive PostAction where
  | skip : PostAction
  | create : Nat → List Char → PostAction
  | update : Nat → List Char → PostAction
deriving DecidableEq

/-- BotCommentBuilder._post_comment: render, then decide between
suppression, creating a new comment and updating the existing one. -/
def post_comment (opt_out_users : List (List Char)) (skip_comment : Bool)
    (author : List Char) (pr_number : Nat) (comments : List Comment)
    (bot_login : List Char) (body_items : List (List Char × Item)) : PostAction :=
  let comment := renderComment body_items
  if opt_out_users.any (fun u => u = author) then PostAction.skip
  else if skip_comment then PostAction.skip
  else
    match find_bot_comment comments bot_login with
    | none => PostAction.create pr_number comment
    | some c => PostAction.update c.databaseId comment

/-- The merging loop of `post_items`: skip items whose text is absent or
blank after trimming, otherwise replace or insert the trimmed item. -/
def mergeItems (body_items : List (List Char × Item)) : List Item → List (List Char × Item)
  | [] => body_items
  | it :: rest =>
    match it.text with
    | none => mergeItems body_items rest
    | some t =>
      if pyStrip t = [] then mergeItems body_items rest
      else mergeItems
        (dictInsert body_items it.key
          { key := it.key, text := some (pyStrip t), is_done := it.is_done }) rest

/-- BotCommentBuilder.post_items: parse the existing body, merge the
supplied items, and post or update the comment. -/
def post_items (opt_out_users : List (List Char)) (skip_comment : Bool)
    (author : List Char) (pr_number : Nat) (comments : List Comment)
    (bot_login : List Char) (items : List Item) : Except String PostAction :=
  match find_existing_body comments bot_login with
  | .error e => .error e
  | .ok body_items =>
    .ok (post_comment opt_out_users skip_comment author pr_number comments
      bot_login (mergeItems body_items items))

/-- Follows the spec's words for claim C7: the stored text is obtained
from the raw content by stripping leading and trailing whitespace and
removing one leading bullet-point prefix consisting of an asterisk and a
following space.  Used only to compare against `extractContent`. -/
def specStoredText (raw : List Char) : List Char :=
  match pyStrip raw with
  | '*' :: ' ' :: rest => rest
  | s => s

/-- Well-formed section keys: exactly the strings matched by the start
marker's key group [a-z][a-z-]+. -/
def keyWF (k : List Char) : Bool :=
  match k with
  | a :: b :: rest => isAThroughZ a && (b :: rest).all isKeyChar
  | _ => false

/-- Whether the beginnings of two lists agree on their common length. -/
def overlapsAt : List Char → List Char → Bool
  | _, [] => true
  | [], _ => true
  | p :: ps, c :: cs => c = p && overlapsAt ps cs

/-- The text of an item, defaulting to the empty string. -/
def textOf (it : Item) : List Char := it.text.getD []

/-- A delimited section: start marker, raw content, end marker. -/
def sectionStr (key content : List Char) : List Char :=
  start_key key ++ content ++ end_key key

/-- Concatenation of delimited sections. -/
def sectionsConcat : List (List Char × List Char) → List Char
  | [] => []
  | p :: rest => sectionStr p.1 p.2 ++ sectionsConcat rest

/-- The fixed text rendered before the first section. -/
def headerStr : List Char :=
  BOT_COMMENT_START ++ "\n\n".data ++ WELCOME_TEXT ++ "\n\n".data

/-- An item map entry satisfying the conditions under which the rendered
comment reproduces it on re-parsing. -/
def goodEntry (k : List Char) (it : Item) : Prop :=
  it.key = k ∧ keyWF k = true ∧ it.text = some (textOf it) ∧
    pyStrip (textOf it) = textOf it ∧ (textOf it).head? ≠ some '*' ∧
    containsSeq mark (textOf it) = false ∧
    it.is_done = containsSeq (done_key k) (textOf it)

instance (k : List Char) (it : Item) : Decidable (goodEntry k it) := by
  unfold goodEntry
  infer_instance

/-- A section map whose rendering re-parses to itself: insertion-unique
keys and good entries. -/
def goodMap (m : List (List Char × Item)) : Prop :=
  (m.map Prod.fst).Nodup ∧ ∀ p ∈ m, goodEntry p.1 p.2

instance (m : List (List Char × Item)) : Decidable (goodMap m) := by
  unfold goodMap
  infer_instance


theorem stripLead_append_self (p s : List Char) : stripLead p (p ++ s) = some s := by
  induction p with
  | nil => rfl
  | cons c cs ih => simp [stripLead, ih]

theorem stripLead_some : ∀ {p s r : List Char}, stripLead p s = some r → s = p ++ r
  | [], s, r, h => by simpa [stripLead] using h
  | _ :: _, [], _, h => by simp [stripLead] at h
  | a :: ps, c :: cs, r, h => by
    by_cases hc : c = a
    · simp only [stripLead, if_pos hc] at h
      have := stripLead_some h
      simp [hc, this]
    · simp [stripLead, hc] at h

theorem stripLead_none_of_overlap : ∀ (p w z : List Char), overlapsAt p w = false →
    stripLead p (w ++ z) = none
  | [], [], _, h => by simp [overlapsAt] at h
  | [], _ :: _, _, h => by simp [overlapsAt] at h
  | _ :: _, [], _, h => by simp [overlapsAt] at h
  | a :: ps, c :: cs, z, h => by
    by_cases hc : c = a
    · have h2 : overlapsAt ps cs = false := by
        simpa [overlapsAt, hc] using h
      simpa [stripLead, hc] using stripLead_none_of_overlap ps cs z h2
    · simp [stripLead, hc]

theorem containsSeq_cons_false {pat : List Char} {c : Char} {cs : List Char}
    (h : containsSeq pat (c :: cs) = false) :
    hasLead pat (c :: cs) = false ∧ containsSeq pat cs = false := by
  simpa [containsSeq] using h

theorem containsSeq_head_false {pat s : List Char} (h : containsSeq pat s = false) :
    hasLead pat s = false := by
  cases s with
  | nil => simpa [containsSeq] using h
  | cons c cs => exact (containsSeq_cons_false h).1

theorem mark_length : mark.length = 16 := by decide

theorem mark_cons : mark = '<' :: "!--bot-comment-".data := rfl

theorem mark_drop_head : ∀ m, m < 16 → 1 ≤ m → (mark.drop m).head? ≠ some '<' := by decide

theorem isKeyChar_true_of : ∀ c ∈ "abcdefghijklmnopqrstuvwxyz-".data, isKeyChar c = true := by
  decide

theorem keyRun_cons_true (c : Char) (cs : List Char) (h : isKeyChar c = true) :
    keyRun (c :: cs) = keyRun cs + 1 := by
  simp [keyRun, h]

theorem keyRun_cons_false (c : Char) (cs : List Char) (h : isKeyChar c = false) :
    keyRun (c :: cs) = 0 := by
  simp [keyRun, h]

theorem keyRun_append {k : List Char} (h : k.all isKeyChar = true) (s : List Char) :
    keyRun (k ++ s) = k.length + keyRun s := by
  induction k with
  | nil => simp [keyRun]
  | cons c cs ih =>
    simp only [List.all_cons, Bool.and_eq_true] at h
    simp only [List.cons_append, keyRun_cons_true c _ h.1, ih h.2, List.length_cons]
    omega

theorem keyRun_startTail (z : List Char) : keyRun (startTail ++ z) = 8 := by
  show keyRun ('-' :: 's' :: 't' :: 'a' :: 'r' :: 't' :: '-' :: '-' :: '>' :: z) = 8
  rw [keyRun_cons_true _ _ (by decide), keyRun_cons_true _ _ (by decide),
    keyRun_cons_true _ _ (by decide), keyRun_cons_true _ _ (by decide),
    keyRun_cons_true _ _ (by decide), keyRun_cons_true _ _ (by decide),
    keyRun_cons_true _ _ (by decide), keyRun_cons_true _ _ (by decide),
    keyRun_cons_false _ _ (by decide)]

theorem keyRun_endTail (z : List Char) : keyRun (endTail ++ z) = 6 := by
  show keyRun ('-' :: 'e' :: 'n' :: 'd' :: '-' :: '-' :: '>' :: z) = 6
  rw [keyRun_cons_true _ _ (by decide), keyRun_cons_true _ _ (by decide),
    keyRun_cons_true _ _ (by decide), keyRun_cons_true _ _ (by decide),
    keyRun_cons_true _ _ (by decide), keyRun_cons_true _ _ (by decide),
    keyRun_cons_false _ _ (by decide)]

theorem keyRun_take : ∀ (s : List Char) (t : Nat), t ≤ keyRun s → (s.take t).all isKeyChar = true
  | _, 0, _ => by simp
  | [], t + 1, h => by simp [keyRun] at h
  | c :: cs, t + 1, h => by
    by_cases hc : isKeyChar c = true
    · rw [keyRun_cons_true c cs hc] at h
      simp only [List.take_succ_cons, List.all_cons, hc, Bool.true_and]
      exact keyRun_take cs t (by omega)
    · rw [keyRun_cons_false c cs (by simpa using hc)] at h
      omega

theorem greedyFrom_zero (pat s : List Char) (lo : Nat) :
    greedyFrom pat s lo 0 =
      if lo = 0 then (stripLead pat s).map (fun r => (0, r)) else none := rfl

theorem greedyFrom_succ (pat s : List Char) (lo t : Nat) :
    greedyFrom pat s lo (t + 1) =
      if t + 1 < lo then none
      else
        match stripLead pat (s.drop (t + 1)) with
        | some r => some (t + 1, r)
        | none => greedyFrom pat s lo t := rfl

theorem greedyFrom_some : ∀ (pat s : List Char) (lo n t : Nat) (r : List Char),
    greedyFrom pat s lo n = some (t, r) →
    lo ≤ t ∧ t ≤ n ∧ stripLead pat (s.drop t) = some r
  | pat, s, lo, 0, t, r, h => by
    rw [greedyFrom_zero] at h
    split at h
    · next hlo =>
      cases hsl : stripLead pat s with
      | none => rw [hsl] at h; simp at h
      | some r' =>
        rw [hsl] at h
        simp only [Option.map_some'] at h
        obtain ⟨ht, hr⟩ := Prod.mk.injEq .. ▸ (Option.some.injEq .. ▸ h)
        refine ⟨by omega, by omega, ?_⟩
        subst hr
        rw [← ht]
        simpa using hsl
    · simp at h
  | pat, s, lo, n + 1, t, r, h => by
    rw [greedyFrom_succ] at h
    split at h
    · simp at h
    · next hlo =>
      split at h
      · next r' hsl =>
        obtain ⟨ht, hr⟩ := Prod.mk.injEq .. ▸ (Option.some.injEq .. ▸ h)
        subst ht
        refine ⟨by omega, by omega, by rw [hsl, hr]⟩
      · have := greedyFrom_some pat s lo n t r h
        exact ⟨this.1, by omega, this.2.2⟩

theorem startTail_length : startTail.length = 9 := by decide

theorem endTail_length : endTail.length = 7 := by decide

theorem tryEndHere_nil : tryEndHere [] = none := rfl

theorem tryEndHere_some {s k rem : List Char} (h : tryEndHere s = some (k, rem)) :
    s = mark ++ k ++ endTail ++ rem ∧ 1 ≤ k.length ∧ k.all isKeyChar = true := by
  unfold tryEndHere at h
  cases hsl : stripLead mark s with
  | none => rw [hsl] at h; simp at h
  | some r =>
    rw [hsl] at h
    dsimp only at h
    cases hek : matchEndKey r with
    | none => rw [hek] at h; simp at h
    | some tr =>
      obtain ⟨t, rem'⟩ := tr
      rw [hek] at h
      simp only [Option.some.injEq, Prod.mk.injEq] at h
      obtain ⟨hk, hrem⟩ := h
      obtain ⟨h1, h2, h3⟩ := greedyFrom_some endTail r 1 (keyRun r) t rem' hek
      have hdrop : r.drop t = endTail ++ rem' := stripLead_some h3
      have ht : t ≤ r.length := by
        by_contra hcon
        push_neg at hcon
        have hnil : r.drop t = [] := List.drop_eq_nil_of_le (le_of_lt hcon)
        rw [hnil] at hdrop
        have := congrArg List.length hdrop
        simp [endTail_length] at this
        omega
      have hs : s = mark ++ r := stripLead_some hsl
      subst hk hrem
      refine ⟨?_, by rw [List.length_take]; omega, keyRun_take r t h2⟩
      rw [hs]
      conv_lhs => rw [show r = r.take t ++ r.drop t from (List.take_append_drop t r).symm]
      rw [hdrop]
      simp [List.append_assoc]

theorem findEnd_nil : findEnd [] = none := rfl

theorem findEnd_cons (c : Char) (cs : List Char) :
    findEnd (c :: cs) =
      match tryEndHere (c :: cs) with
      | some (k, rem) => some ([], k, rem)
      | none =>
        match findEnd cs with
        | none => none
        | some (content, k, rem) => some (c :: content, k, rem) := rfl

theorem findEnd_some : ∀ {s c k rem : List Char}, findEnd s = some (c, k, rem) →
    s = c ++ mark ++ k ++ endTail ++ rem ∧ 1 ≤ k.length ∧ k.all isKeyChar = true
  | [], c, k, rem, h => by rw [findEnd_nil] at h; simp at h
  | a :: as, c, k, rem, h => by
    rw [findEnd_cons] at h
    cases htr : tryEndHere (a :: as) with
    | some kr =>
      obtain ⟨k', rem'⟩ := kr
      rw [htr] at h
      simp only [Option.some.injEq, Prod.mk.injEq] at h
      obtain ⟨hc, hk, hrem⟩ := h
      obtain ⟨hsh, hlen, hchars⟩ := tryEndHere_some htr
      subst hk hrem
      rw [← hc]
      exact ⟨by simpa using hsh, hlen, hchars⟩
    | none =>
      rw [htr] at h
      cases hfe : findEnd as with
      | none => rw [hfe] at h; simp at h
      | some x =>
        obtain ⟨ct, k', rem'⟩ := x
        rw [hfe] at h
        simp only [Option.some.injEq, Prod.mk.injEq] at h
        obtain ⟨hc, hk, hrem⟩ := h
        obtain ⟨hsh, hlen, hchars⟩ := findEnd_some hfe
        subst hk hrem
        refine ⟨?_, hlen, hchars⟩
        rw [← hc]
        simp [hsh]

theorem matchAt_nil : matchAt [] = none := rfl

theorem matchAt_some {s k c e rest : List Char} (h : matchAt s = some (k, c, e, rest)) :
    s = mark ++ k ++ startTail ++ c ++ mark ++ e ++ endTail ++ rest ∧ keyWF k = true ∧
      1 ≤ e.length := by
  unfold matchAt at h
  cases hsl : stripLead mark s with
  | none => rw [hsl] at h; simp at h
  | some r =>
    rw [hsl] at h
    dsimp only at h
    cases hh : r.head? with
    | none => rw [hh] at h; simp at h
    | some ch =>
      rw [hh] at h
      dsimp only at h
      by_cases hlow : isAThroughZ ch = true
      · rw [if_pos hlow] at h
        cases hg : greedyFrom startTail r 2 (keyRun r) with
        | none => rw [hg] at h; simp at h
        | some tr =>
          obtain ⟨t, rem1⟩ := tr
          rw [hg] at h
          dsimp only at h
          cases hfe : findEnd rem1 with
          | none => rw [hfe] at h; simp at h
          | some x =>
            obtain ⟨ct, ek, rem2⟩ := x
            rw [hfe] at h
            simp only [Option.some.injEq, Prod.mk.injEq] at h
            obtain ⟨hk, hc, he, hrest⟩ := h
            obtain ⟨hg1, hg2, hg3⟩ := greedyFrom_some _ _ _ _ _ _ hg
            have hdrop : r.drop t = startTail ++ rem1 := stripLead_some hg3
            have ht : t ≤ r.length := by
              by_contra hcon
              push_neg at hcon
              have hnil : r.drop t = [] := List.drop_eq_nil_of_le (le_of_lt hcon)
              rw [hnil] at hdrop
              have := congrArg List.length hdrop
              simp [startTail_length] at this
              omega
            obtain ⟨hfs, hfl, hfc⟩ := findEnd_some hfe
            have hs : s = mark ++ r := stripLead_some hsl
            have hklen : k.length = t := by
              rw [← hk, List.length_take]; omega
            have hrk : r = k ++ startTail ++ rem1 := by
              conv_lhs => rw [show r = r.take t ++ r.drop t from (List.take_append_drop t r).symm]
              rw [hdrop, hk]
              simp [List.append_assoc]
            have hkall : k.all isKeyChar = true := by
              rw [← hk]; exact keyRun_take r t hg2
            have hkwf : keyWF k = true := by
              cases k with
              | nil => simp at hklen; omega
              | cons a k1 =>
                cases k1 with
                | nil => simp at hklen; omega
                | cons b k2 =>
                  have hha : r.head? = some a := by
                    rw [hrk]; rfl
                  rw [hha] at hh
                  have : a = ch := by simpa using hh
                  simp only [List.all_cons, Bool.and_eq_true] at hkall
                  simp [keyWF, this, hlow, List.all_cons, hkall.2.1, hkall.2.2]
            subst hc he hrest
            refine ⟨?_, hkwf, hfl⟩
            rw [hs, hrk, hfs]
            simp [List.append_assoc]
      · rw [if_neg hlow] at h
        simp at h

theorem matchAt_some_length {s : List Char} {x : List Char × List Char × List Char × List Char}
    (h : matchAt s = some x) : x.2.2.2.length < s.length := by
  obtain ⟨k, c, e, rest⟩ := x
  have hsh := (matchAt_some h).1
  have hl := congrArg List.length hsh
  simp only [List.length_append, mark_length, startTail_length, endTail_length] at hl
  simp only []
  omega

theorem scanFuel_nil : ∀ f, scanFuel f [] = []
  | 0 => rfl
  | _ + 1 => rfl

theorem scanFuel_succ (f : Nat) (s : List Char) :
    scanFuel (f + 1) s =
      match matchAt s with
      | some (sk, content, ek, rest) => (sk, content, ek) :: scanFuel f rest
      | none =>
        match s with
        | [] => []
        | _ :: cs => scanFuel f cs := rfl

theorem scanFuel_eq (s : List Char) (f₁ f₂ : Nat) (h₁ : s.length ≤ f₁) (h₂ : s.length ≤ f₂) :
    scanFuel f₁ s = scanFuel f₂ s := by
  cases s with
  | nil => rw [scanFuel_nil, scanFuel_nil]
  | cons a as =>
    cases f₁ with
    | zero => simp at h₁
    | succ g₁ =>
      cases f₂ with
      | zero => simp at h₂
      | succ g₂ =>
        rw [scanFuel_succ, scanFuel_succ]
        cases hm : matchAt (a :: as) with
        | some x =>
          obtain ⟨k, c, e, rest⟩ := x
          have hl := matchAt_some_length hm
          simp only [List.length_cons] at hl h₁ h₂
          dsimp only
          rw [scanFuel_eq rest g₁ g₂ (by omega) (by omega)]
        | none =>
          simp only [List.length_cons] at h₁ h₂
          dsimp only
          exact scanFuel_eq as g₁ g₂ (by omega) (by omega)
termination_by s.length
decreasing_by
  all_goals simp_all

theorem scanBody_nil : scanBody [] = [] := rfl

theorem scanBody_match {s k c e rest : List Char} (h : matchAt s = some (k, c, e, rest)) :
    scanBody s = (k, c, e) :: scanBody rest := by
  cases s with
  | nil => rw [matchAt_nil] at h; simp at h
  | cons a as =>
    have hl := matchAt_some_length h
    show scanFuel (as.length + 1) (a :: as) = _
    rw [scanFuel_succ, h]
    dsimp only
    simp only [List.length_cons] at hl
    rw [scanFuel_eq rest as.length rest.length (by omega) (le_refl _)]
    rfl

theorem scanBody_step {a : Char} {as : List Char} (h : matchAt (a :: as) = none) :
    scanBody (a :: as) = scanBody as := by
  show scanFuel (as.length + 1) (a :: as) = _
  rw [scanFuel_succ, h]
  dsimp only
  rfl

theorem scanBody_of_noMark {s : List Char} (h : containsSeq mark s = false) :
    scanBody s = [] := by
  induction s with
  | nil => rfl
  | cons a as ih =>
    obtain ⟨h1, h2⟩ := containsSeq_cons_false h
    have hm : matchAt (a :: as) = none := by
      unfold matchAt
      cases hsl : stripLead mark (a :: as) with
      | none => rfl
      | some r => rw [hasLead, hsl] at h1; simp at h1
    rw [scanBody_step hm, ih h2]

/-- An occurrence of `mark` cannot start strictly inside `a` and continue
into a following `mark`: the character at the boundary would have to be
the opening angle bracket, which `mark` contains only at position zero. -/
theorem extendNone {a : List Char} (w : List Char) (ha : hasLead mark a = false)
    (hne : a ≠ []) : stripLead mark (a ++ (mark ++ w)) = none := by
  cases hs : stripLead mark (a ++ (mark ++ w)) with
  | none => rfl
  | some r =>
    exfalso
    have heq : a ++ (mark ++ w) = mark ++ r := stripLead_some hs
    by_cases hlen : mark.length ≤ a.length
    · have htake : a.take mark.length = mark := by
        have h1 := congrArg (List.take mark.length) heq
        rwa [List.take_append_of_le_length hlen, List.take_left] at h1
      have hsplit : a = mark ++ a.drop mark.length := by
        conv_lhs => rw [← List.take_append_drop mark.length a]
        rw [htake]
      rw [hasLead, hsplit, stripLead_append_self] at ha
      simp at ha
    · push_neg at hlen
      have hm1 : 1 ≤ a.length := by
        cases a with
        | nil => exact absurd rfl hne
        | cons x xs => simp
      have h2 := congrArg (List.drop a.length) heq
      rw [List.drop_left, List.drop_append_of_le_length (le_of_lt hlen)] at h2
      rw [mark_length] at hlen
      cases hd : mark.drop a.length with
      | nil =>
        have := congrArg List.length hd
        simp [mark_length] at this
        omega
      | cons x xs =>
        rw [hd, mark_cons] at h2
        have hx : x = '<' := by
          have := congrArg List.head? h2
          simpa using this.symm
        exact mark_drop_head a.length hlen hm1 (by rw [hd, hx]; rfl)



theorem startTail_no_overlap : ∀ j, j < 9 → 1 ≤ j →
    overlapsAt startTail (startTail.drop j) = false := by decide

theorem endTail_no_overlap : ∀ j, j < 7 → 1 ≤ j →
    overlapsAt endTail (endTail.drop j) = false := by decide

theorem keyWF_all {k : List Char} (h : keyWF k = true) :
    k.all isKeyChar = true ∧ 2 ≤ k.length := by
  cases k with
  | nil => simp [keyWF] at h
  | cons a k1 =>
    cases k1 with
    | nil => simp [keyWF] at h
    | cons b k2 =>
      simp only [keyWF, Bool.and_eq_true] at h
      refine ⟨?_, by simp⟩
      simp only [List.all_cons, Bool.and_eq_true]
      exact ⟨by simp [isKeyChar, h.1], by simpa [List.all_cons] using h.2⟩

/-- Evaluation of the greedy backtracking search at a marker: the unique
group length that the literal tail can follow is the key's length. -/
theorem greedy_marker (tl k z : List Char) (lo : Nat) (hk : 1 ≤ k.length)
    (hlo : lo ≤ k.length)
    (hno : ∀ j, j < tl.length → 1 ≤ j → overlapsAt tl (tl.drop j) = false) :
    ∀ j, j + 1 ≤ tl.length → greedyFrom tl (k ++ (tl ++ z)) lo (k.length + j) = some (k.length, z)
  | 0, _ => by
    cases k with
    | nil => simp at hk
    | cons a k1 =>
      show greedyFrom tl ((a :: k1) ++ (tl ++ z)) lo (k1.length + 1) = _
      rw [greedyFrom_succ, if_neg (by simp at hlo ⊢; omega)]
      have hdrop : ((a :: k1) ++ (tl ++ z)).drop (k1.length + 1) = tl ++ z := by
        rw [show k1.length + 1 = (a :: k1).length from by simp]
        exact List.drop_left _ _
      rw [hdrop, stripLead_append_self]
      simp
  | j + 1, hj => by
    have harith : k.length + (j + 1) = (k.length + j) + 1 := by omega
    rw [harith, greedyFrom_succ, if_neg (by omega)]
    have hdrop : (k ++ (tl ++ z)).drop ((k.length + j) + 1) = tl.drop (j + 1) ++ z := by
      rw [show (k.length + j) + 1 = k.length + (j + 1) from by omega, List.drop_append,
        List.drop_append_of_le_length (by omega)]
    rw [hdrop, stripLead_none_of_overlap tl (tl.drop (j + 1)) z (hno (j + 1) (by omega) (by omega))]
    exact greedy_marker tl k z lo hk hlo hno j (by omega)

theorem greedy_start (k z : List Char) (hk : keyWF k = true) :
    greedyFrom startTail (k ++ (startTail ++ z)) 2 (keyRun (k ++ (startTail ++ z))) =
      some (k.length, z) := by
  obtain ⟨hall, hlen⟩ := keyWF_all hk
  rw [keyRun_append hall, keyRun_startTail]
  exact greedy_marker startTail k z 2 (by omega) hlen startTail_no_overlap 8
    (by rw [startTail_length])

theorem endkey_match (k rest : List Char) (hk : 1 ≤ k.length)
    (hall : k.all isKeyChar = true) :
    matchEndKey (k ++ (endTail ++ rest)) = some (k.length, rest) := by
  unfold matchEndKey
  rw [keyRun_append hall, keyRun_endTail]
  exact greedy_marker endTail k rest 1 hk hk endTail_no_overlap 6 (by rw [endTail_length])

theorem tryEndHere_marker (k rest : List Char) (hk : 1 ≤ k.length)
    (hall : k.all isKeyChar = true) :
    tryEndHere (mark ++ (k ++ (endTail ++ rest))) = some (k, rest) := by
  unfold tryEndHere
  rw [stripLead_append_self]
  dsimp only
  rw [endkey_match k rest hk hall]
  dsimp only
  rw [show k ++ (endTail ++ rest) = (k ++ endTail) ++ rest from by simp,
    List.take_append_of_le_length (by simp), List.take_left]

theorem findEnd_marker (k rest : List Char) (hk : 1 ≤ k.length)
    (hall : k.all isKeyChar = true) :
    findEnd (mark ++ (k ++ (endTail ++ rest))) = some ([], k, rest) := by
  have h := tryEndHere_marker k rest hk hall
  rw [mark_cons] at h ⊢
  simp only [List.cons_append] at h ⊢
  rw [findEnd_cons, h]

theorem findEnd_skip (u w : List Char) (hu : containsSeq mark u = false) :
    findEnd (u ++ (mark ++ w)) =
      (findEnd (mark ++ w)).map (fun x => (u ++ x.1, x.2.1, x.2.2)) := by
  induction u with
  | nil =>
    simp only [List.nil_append]
    cases hf : findEnd (mark ++ w) with
    | none => simp
    | some x => obtain ⟨a, b, c⟩ := x; simp
  | cons a as ih =>
    obtain ⟨h1, h2⟩ := containsSeq_cons_false hu
    have hne : stripLead mark ((a :: as) ++ (mark ++ w)) = none :=
      extendNone w h1 (by simp)
    simp only [List.cons_append] at hne ⊢
    have htry : tryEndHere (a :: (as ++ (mark ++ w))) = none := by
      unfold tryEndHere
      rw [hne]
    rw [findEnd_cons, htry]
    dsimp only
    rw [ih h2]
    cases hf : findEnd (mark ++ w) with
    | none => simp
    | some x => obtain ⟨c1, c2, c3⟩ := x; simp

theorem matchAt_sec (k w rest : List Char) (hk : keyWF k = true)
    (hw : containsSeq mark w = false) :
    matchAt (mark ++ (k ++ (startTail ++ (w ++ (mark ++ (k ++ (endTail ++ rest))))))) =
      some (k, w, k, rest) := by
  obtain ⟨hall, hlen⟩ := keyWF_all hk
  unfold matchAt
  rw [stripLead_append_self]
  dsimp only
  cases k with
  | nil => simp at hlen
  | cons a k1 =>
    have hhead : ((a :: k1) ++ (startTail ++ (w ++ (mark ++ ((a :: k1) ++ (endTail ++ rest)))))).head?
        = some a := by simp
    rw [hhead]
    dsimp only
    have hlow : isAThroughZ a = true := by
      cases k1 with
      | nil => simp [keyWF] at hk
      | cons b k2 =>
        simp only [keyWF, Bool.and_eq_true] at hk
        exact hk.1
    rw [if_pos hlow, greedy_start (a :: k1) _ hk]
    dsimp only
    rw [findEnd_skip w (((a :: k1) ++ (endTail ++ rest))) hw,
      findEnd_marker (a :: k1) rest (by simp) hall]
    simp only [Option.map_some']
    rw [show (a :: k1) ++ (startTail ++ (w ++ (mark ++ ((a :: k1) ++ (endTail ++ rest)))))
        = ((a :: k1) ++ startTail) ++ (w ++ (mark ++ ((a :: k1) ++ (endTail ++ rest)))) from by simp,
      List.take_append_of_le_length (by simp), List.take_left]
    simp

theorem scanBody_sec (k w rest : List Char) (hk : keyWF k = true)
    (hw : containsSeq mark w = false) :
    scanBody (sectionStr k w ++ rest) = (k, w, k) :: scanBody rest := by
  have hm := matchAt_sec k w rest hk hw
  have hshape : sectionStr k w ++ rest =
      mark ++ (k ++ (startTail ++ (w ++ (mark ++ (k ++ (endTail ++ rest)))))) := by
    simp [sectionStr, start_key, end_key]
  rw [hshape]
  exact scanBody_match hm

theorem scanBody_sections (l : List (List Char × List Char)) (z : List Char)
    (hl : ∀ p ∈ l, keyWF p.1 = true ∧ containsSeq mark p.2 = false)
    (hz : containsSeq mark z = false) :
    scanBody (sectionsConcat l ++ z) = l.map (fun p => (p.1, p.2, p.1)) := by
  induction l with
  | nil => simpa [sectionsConcat] using scanBody_of_noMark hz
  | cons p rest ih =>
    obtain ⟨hk, hw⟩ := hl p (by simp)
    show scanBody ((sectionStr p.1 p.2 ++ sectionsConcat rest) ++ z) = _
    rw [List.append_assoc, scanBody_sec p.1 p.2 _ hk hw,
      ih (fun q hq => hl q (by simp [hq]))]
    simp



theorem header_noMark : containsSeq mark headerStr = false := by decide

theorem footer_noMark : containsSeq mark FOOTER_TEXT = false := by decide

theorem headerFooter_noMark : containsSeq mark (headerStr ++ FOOTER_TEXT) = false := by decide

theorem scanBody_trans (u w : List Char) (hu : containsSeq mark u = false) :
    scanBody (u ++ (mark ++ w)) = scanBody (mark ++ w) := by
  induction u with
  | nil => simp
  | cons a as ih =>
    obtain ⟨h1, h2⟩ := containsSeq_cons_false hu
    have hne : stripLead mark ((a :: as) ++ (mark ++ w)) = none := extendNone w h1 (by simp)
    simp only [List.cons_append] at hne ⊢
    have hm : matchAt (a :: (as ++ (mark ++ w))) = none := by
      unfold matchAt
      rw [hne]
    rw [scanBody_step hm, ih h2]

theorem containsSeq_mark_cons {c : Char} (hc : c ≠ '<') (s : List Char) :
    containsSeq mark (c :: s) = containsSeq mark s := by
  have hfalse : hasLead mark (c :: s) = false := by
    rw [mark_cons, hasLead]
    simp [stripLead, hc]
  simp [containsSeq, hfalse]

theorem containsSeq_bullet {t : List Char} (h : containsSeq mark t = false) :
    containsSeq mark ('\n' :: ' ' :: '*' :: ' ' :: t) = false := by
  rw [containsSeq_mark_cons (by decide), containsSeq_mark_cons (by decide),
    containsSeq_mark_cons (by decide), containsSeq_mark_cons (by decide), h]

theorem bullet_data : "\n * ".data = ['\n', ' ', '*', ' '] := rfl

theorem dropWhile_cons_self {p : Char → Bool} {c : Char} {t : List Char}
    (h : List.dropWhile p (c :: t) = c :: t) : p c = false := by
  by_cases hp : p c = true
  · rw [List.dropWhile_cons_of_pos hp] at h
    have hle := (List.dropWhile_sublist (l := t) p).length_le
    have := congrArg List.length h
    simp at this
    omega
  · simpa using hp

theorem pyStrip_stable {t : List Char} (h : pyStrip t = t) :
    t.dropWhile pyIsSpace = t ∧ dropTrail pyIsSpace t = t := by
  have hgen : ∀ w : List Char, (w.dropWhile pyIsSpace).length ≤ w.length :=
    fun w => (List.dropWhile_sublist pyIsSpace).length_le
  have h1 : (t.dropWhile pyIsSpace).length ≤ t.length := hgen t
  have h2 : (dropTrail pyIsSpace (t.dropWhile pyIsSpace)).length ≤
      (t.dropWhile pyIsSpace).length := by
    unfold dropTrail
    have := hgen (t.dropWhile pyIsSpace).reverse
    simp only [List.length_reverse] at this ⊢
    exact this
  have hlen := congrArg List.length h
  rw [pyStrip] at hlen
  have hx : t.dropWhile pyIsSpace = t :=
    (List.dropWhile_sublist pyIsSpace).eq_of_length (by omega)
  refine ⟨hx, ?_⟩
  rw [pyStrip, hx] at h
  exact h

theorem dropTrail_reverse_stable {t : List Char} (h : dropTrail pyIsSpace t = t) :
    t.reverse.dropWhile pyIsSpace = t.reverse := by
  unfold dropTrail at h
  have := congrArg List.reverse h
  simpa using this

theorem dropTrail_append_stable {t : List Char} (h : dropTrail pyIsSpace t = t)
    (ht : t ≠ []) (u : List Char) : dropTrail pyIsSpace (u ++ t) = u ++ t := by
  have hrev := dropTrail_reverse_stable h
  unfold dropTrail
  rw [List.reverse_append]
  cases hr : t.reverse with
  | nil =>
    have := congrArg List.reverse hr
    simp at this
    exact absurd this ht
  | cons c cs =>
    rw [hr] at hrev
    have hc : pyIsSpace c = false := dropWhile_cons_self hrev
    rw [List.cons_append, List.dropWhile_cons_of_neg (by simp [hc])]
    rw [← List.cons_append, ← hr, List.reverse_append]
    simp

theorem extractContent_bullet {t : List Char} (hstrip : pyStrip t = t)
    (hstar : t.head? ≠ some '*') :
    extractContent ('\n' :: ' ' :: '*' :: ' ' :: t) = t := by
  cases t with
  | nil => decide
  | cons c t' =>
    obtain ⟨hlead, htrail⟩ := pyStrip_stable hstrip
    have hc : pyIsSpace c = false := dropWhile_cons_self hlead
    unfold extractContent pyStrip
    have hdw : List.dropWhile pyIsSpace ('\n' :: ' ' :: '*' :: ' ' :: c :: t') =
        '*' :: ' ' :: c :: t' := by
      rw [List.dropWhile_cons_of_pos (by decide), List.dropWhile_cons_of_pos (by decide),
        List.dropWhile_cons_of_neg (by decide)]
    rw [hdw]
    have hdt : dropTrail pyIsSpace ('*' :: ' ' :: c :: t') = '*' :: ' ' :: c :: t' := by
      have := dropTrail_append_stable htrail (by simp) ['*', ' ']
      simpa using this
    rw [hdt]
    unfold lstripStarSpace
    rw [List.dropWhile_cons_of_pos (by decide), List.dropWhile_cons_of_pos (by decide),
      List.dropWhile_cons_of_neg ?_]
    simp only [isStarSpace, Bool.or_eq_true, decide_eq_true_eq]
    rintro (h1 | h2)
    · exact hstar (by simp [h1])
    · rw [h2] at hc
      simp [pyIsSpace] at hc

theorem renderLines_sections (m : List (List Char × Item))
    (hm : ∀ p ∈ m, p.2.text = some (textOf p.2) ∧ pyStrip (textOf p.2) = textOf p.2) :
    renderLines m =
      sectionsConcat (m.map (fun p => (p.1, '\n' :: ' ' :: '*' :: ' ' :: textOf p.2))) := by
  induction m with
  | nil => rfl
  | cons p rest ih =>
    obtain ⟨k, it⟩ := p
    have hp := hm (k, it) (by simp)
    simp only at hp
    obtain ⟨htext, hstable⟩ := hp
    show renderLines ((k, it) :: rest) = _
    rw [List.map_cons]
    show _ = sectionStr k ('\n' :: ' ' :: '*' :: ' ' :: textOf it) ++
      sectionsConcat (rest.map (fun p => (p.1, '\n' :: ' ' :: '*' :: ' ' :: textOf p.2)))
    simp only [renderLines, htext]
    have hline : renderLine k (textOf it) =
        sectionStr k ('\n' :: ' ' :: '*' :: ' ' :: textOf it) := by
      simp only [renderLine, sectionStr, hstable, bullet_data]
      simp
    rw [hline, ih (fun q hq => hm q (by simp [hq]))]

theorem dictLookup_map_ne {m : List (List Char × Item)} {k k' : List Char} (v : Item)
    (h : k' ≠ k) :
    dictLookup (m.map (fun p => if p.1 = k then (k, v) else p)) k' = dictLookup m k' := by
  induction m with
  | nil => rfl
  | cons q m' ih =>
    obtain ⟨a, w⟩ := q
    by_cases hak : a = k
    · subst hak
      simp only [List.map_cons, if_pos rfl]
      rw [dictLookup, dictLookup, if_neg (by exact fun hc => h hc.symm),
        if_neg (by exact fun hc => h hc.symm)]
      exact ih
    · simp only [List.map_cons, if_neg hak]
      rw [dictLookup, dictLookup]
      by_cases hak' : a = k'
      · rw [if_pos hak', if_pos hak']
      · rw [if_neg hak', if_neg hak']
        exact ih

theorem dictLookup_map_self {m : List (List Char × Item)} {k : List Char} (v : Item)
    (h : m.any (fun p => p.1 = k) = true) :
    dictLookup (m.map (fun p => if p.1 = k then (k, v) else p)) k = some v := by
  induction m with
  | nil => simp at h
  | cons q m' ih =>
    obtain ⟨a, w⟩ := q
    by_cases hak : a = k
    · subst hak
      rw [List.map_cons]
      have hhead : (if (a, w).1 = a then ((a, v) : List Char × Item) else (a, w)) = (a, v) := by
        simp
      rw [hhead, dictLookup, if_pos rfl]
    · simp only [List.any_cons, Bool.or_eq_true] at h
      have h' : m'.any (fun p => p.1 = k) = true := by
        rcases h with h | h
        · exact absurd (by simpa using h) hak
        · exact h
      simp only [List.map_cons, if_neg hak]
      rw [dictLookup, if_neg hak]
      exact ih h'

theorem dictLookup_append_single {m : List (List Char × Item)} {k : List Char} (v : Item)
    (h : m.any (fun p => p.1 = k) = false) (k' : List Char) :
    dictLookup (m ++ [(k, v)]) k' = if k' = k then some v else dictLookup m k' := by
  induction m with
  | nil =>
    by_cases hk : k' = k
    · simp [dictLookup, hk]
    · rw [List.nil_append]
      simp [dictLookup, hk, Ne.symm hk]
  | cons q m' ih =>
    obtain ⟨a, w⟩ := q
    simp only [List.any_cons, Bool.or_eq_false_iff] at h
    have hak : a ≠ k := by
      intro hc
      rw [hc] at h
      simpa using h.1
    rw [List.cons_append, dictLookup, dictLookup]
    by_cases hak' : a = k'
    · have hk'k : ¬(k' = k) := by
        rw [← hak']
        exact hak
      rw [if_pos hak', if_neg hk'k, if_pos hak']
    · rw [if_neg hak', ih h.2]
      by_cases hk'k : k' = k
      · rw [if_pos hk'k, if_pos hk'k]
      · rw [if_neg hk'k, if_neg hk'k, if_neg hak']

theorem dictInsert_of_not_any {m : List (List Char × Item)} {k : List Char} (v : Item)
    (h : m.any (fun p => p.1 = k) = false) : dictInsert m k v = m ++ [(k, v)] := by
  simp [dictInsert, h]

theorem dictInsert_of_any {m : List (List Char × Item)} {k : List Char} (v : Item)
    (h : m.any (fun p => p.1 = k) = true) :
    dictInsert m k v = m.map (fun p => if p.1 = k then (k, v) else p) := by
  simp [dictInsert, h]

theorem dictLookup_insert (m : List (List Char × Item)) (k : List Char) (v : Item)
    (k' : List Char) :
    dictLookup (dictInsert m k v) k' = if k' = k then some v else dictLookup m k' := by
  by_cases h : m.any (fun p => p.1 = k) = true
  · rw [dictInsert_of_any v h]
    by_cases hk : k' = k
    · subst hk
      rw [if_pos rfl, dictLookup_map_self v h]
    · rw [if_neg hk, dictLookup_map_ne v hk]
  · rw [dictInsert_of_not_any v (Bool.eq_false_iff.mpr h)]
    exact dictLookup_append_single v (Bool.eq_false_iff.mpr h) k'

theorem dictInsert_mem {m : List (List Char × Item)} {k : List Char} {v : Item}
    {p : List Char × Item} (h : p ∈ dictInsert m k v) : p ∈ m ∨ p = (k, v) := by
  unfold dictInsert at h
  split at h
  · obtain ⟨q, hq, hmap⟩ := List.mem_map.1 h
    by_cases hqk : q.1 = k
    · right
      rw [← hmap, if_pos hqk]
    · left
      rw [← hmap, if_neg hqk]
      exact hq
  · rcases List.mem_append.1 h with h | h
    · exact Or.inl h
    · exact Or.inr (by simpa using h)



theorem buildItems_replay : ∀ (m acc : List (List Char × Item)),
    ((acc ++ m).map Prod.fst).Nodup →
    (∀ p ∈ m, goodEntry p.1 p.2) →
    buildItems (m.map (fun p => (p.1, '\n' :: ' ' :: '*' :: ' ' :: textOf p.2, p.1))) acc =
      .ok (acc ++ m)
  | [], acc, _, _ => by simp [buildItems]
  | p :: rest, acc, hnd, hgood => by
    obtain ⟨k, it⟩ := p
    have hg := hgood (k, it) (by simp)
    simp only at hg
    obtain ⟨hkey, hkwf, htext, hstable, hstar, hmark, hdone⟩ := hg
    show buildItems ((k, '\n' :: ' ' :: '*' :: ' ' :: textOf it, k) :: _) acc = _
    simp only [buildItems, if_pos rfl]
    rw [extractContent_bullet hstable hstar]
    have hit : Item.mk k (some (textOf it)) (containsSeq (done_key k) (textOf it)) = it := by
      obtain ⟨ky, tx, dn⟩ := it
      simp only at hkey htext hdone
      subst hkey
      rw [Item.mk.injEq]
      exact ⟨rfl, htext.symm, hdone.symm⟩
    rw [hit]
    have hnotin : (acc.any (fun q => q.1 = k)) = false := by
      by_contra hc
      have hc' : (acc.any (fun q => q.1 = k)) = true := by simpa using hc
      simp only [List.any_eq_true, decide_eq_true_eq] at hc'
      obtain ⟨q, hq, hqk⟩ := hc'
      have hk1 : k ∈ acc.map Prod.fst := List.mem_map.2 ⟨q, hq, hqk⟩
      have hk2 : k ∈ ((k, it) :: rest).map Prod.fst := by simp
      rw [List.map_append] at hnd
      exact (List.nodup_append.1 hnd).2.2 hk1 hk2
    rw [dictInsert_of_not_any it hnotin]
    have hrec := buildItems_replay rest (acc ++ [(k, it)])
      (by simpa using hnd) (fun q hq => hgood q (by simp [hq]))
    simpa using hrec

/-- Rendering a good section map and re-parsing it with the section
parser reproduces the map exactly. -/
theorem render_parse {m : List (List Char × Item)} (hm : goodMap m) :
    parseSections (renderComment m) = Except.ok m := by
  obtain ⟨hnd, hgood⟩ := hm
  have htexts : ∀ p ∈ m, p.2.text = some (textOf p.2) ∧ pyStrip (textOf p.2) = textOf p.2 :=
    fun p hp => ⟨(hgood p hp).2.2.1, (hgood p hp).2.2.2.1⟩
  have hrl := renderLines_sections m htexts
  have hbody : renderComment m =
      headerStr ++ (sectionsConcat
        (m.map (fun p => (p.1, '\n' :: ' ' :: '*' :: ' ' :: textOf p.2))) ++ FOOTER_TEXT) := by
    rw [renderComment, hrl]
    simp [headerStr, List.append_assoc]
  have hcond : ∀ q ∈ m.map (fun p => (p.1, '\n' :: ' ' :: '*' :: ' ' :: textOf p.2)),
      keyWF q.1 = true ∧ containsSeq mark q.2 = false := by
    intro q hq
    obtain ⟨p, hp, hfq⟩ := List.mem_map.1 hq
    obtain ⟨_, hkwf, _, _, _, hmk, _⟩ := hgood p hp
    rw [← hfq]
    exact ⟨hkwf, containsSeq_bullet hmk⟩
  have hscan : scanBody (renderComment m) =
      (m.map (fun p => (p.1, '\n' :: ' ' :: '*' :: ' ' :: textOf p.2))).map
        (fun q => (q.1, q.2, q.1)) := by
    cases m with
    | nil =>
      rw [hbody]
      simpa [sectionsConcat] using scanBody_of_noMark headerFooter_noMark
    | cons p rest =>
      rw [hbody]
      have hW : sectionsConcat
            ((p :: rest).map (fun p => (p.1, '\n' :: ' ' :: '*' :: ' ' :: textOf p.2))) ++
            FOOTER_TEXT =
          mark ++ ((p.1 ++ startTail) ++ (('\n' :: ' ' :: '*' :: ' ' :: textOf p.2) ++
            (end_key p.1 ++ (sectionsConcat
              (rest.map (fun p => (p.1, '\n' :: ' ' :: '*' :: ' ' :: textOf p.2))) ++
              FOOTER_TEXT)))) := by
        simp [sectionsConcat, sectionStr, start_key, List.append_assoc]
      rw [hW, scanBody_trans headerStr _ header_noMark, ← hW]
      exact scanBody_sections _ FOOTER_TEXT hcond footer_noMark
  unfold parseSections
  rw [hscan, List.map_map]
  have hfun : ((fun q : List Char × List Char => (q.1, q.2, q.1)) ∘
      (fun p : List Char × Item => (p.1, '\n' :: ' ' :: '*' :: ' ' :: textOf p.2))) =
      fun p : List Char × Item => (p.1, '\n' :: ' ' :: '*' :: ' ' :: textOf p.2, p.1) := by
    funext p
    rfl
  rw [hfun]
  have hbuild := buildItems_replay m [] (by simpa using hnd) hgood
  simpa using hbuild

theorem mergeItems_nil (m : List (List Char × Item)) : mergeItems m [] = m := rfl

theorem mergeItems_cons (m : List (List Char × Item)) (it : Item) (rest : List Item) :
    mergeItems m (it :: rest) =
      match it.text with
      | none => mergeItems m rest
      | some t =>
        if pyStrip t = [] then mergeItems m rest
        else mergeItems
          (dictInsert m it.key
            { key := it.key, text := some (pyStrip t), is_done := it.is_done }) rest := rfl

theorem buildItems_nil (acc : List (List Char × Item)) : buildItems [] acc = .ok acc := rfl

theorem buildItems_cons (s text e : List Char) (rest : List (List Char × List Char × List Char))
    (acc : List (List Char × Item)) :
    buildItems ((s, text, e) :: rest) acc =
      if s = e then
        buildItems rest (dictInsert acc s
          { key := s, text := some (extractContent text),
            is_done := containsSeq (done_key s) (extractContent text) })
      else
        .error ("Malformed comment found: " ++ String.mk s ++
          " marker did not have matching end, found instead " ++ String.mk e) := rfl

theorem buildItems_error : ∀ (ms : List (List Char × List Char × List Char))
    (acc : List (List Char × Item)), (∃ x ∈ ms, x.1 ≠ x.2.2) →
    ∃ msg, buildItems ms acc = .error msg
  | [], _, h => by simp at h
  | (s, c, e) :: rest, acc, h => by
    by_cases hse : s = e
    · rw [buildItems_cons, if_pos hse]
      obtain ⟨x, hx, hne⟩ := h
      rcases List.mem_cons.1 hx with hx | hx
    -- head: x = (s, c, e) with s = e contradicts x.1 ≠ x.2.2
      · subst hx
        simp only at hne
        exact absurd hse hne
      · exact buildItems_error rest _ ⟨x, hx, hne⟩
    · exact ⟨_, by rw [buildItems_cons, if_neg hse]⟩

theorem any_key_false_not_mem {m : List (List Char × Item)} {k : List Char}
    (h : m.any (fun p => p.1 = k) = false) : k ∉ m.map Prod.fst := by
  intro hc
  obtain ⟨p, hp, hpk⟩ := List.mem_map.1 hc
  have : m.any (fun q => q.1 = k) = true :=
    List.any_eq_true.2 ⟨p, hp, by simp [hpk]⟩
  rw [h] at this
  simp at this

theorem map_replace_id {m : List (List Char × Item)} {k : List Char} (v : Item)
    (h : m.any (fun p => p.1 = k) = false) :
    m.map (fun p => if p.1 = k then (k, v) else p) = m := by
  induction m with
  | nil => rfl
  | cons q m' ih =>
    simp only [List.any_cons, Bool.or_eq_false_iff] at h
    have hq : q.1 ≠ k := by
      intro hc
      have := h.1
      rw [hc] at this
      simp at this
    simp only [List.map_cons, if_neg hq]
    rw [ih h.2]

theorem dictInsert_keys (m : List (List Char × Item)) (k : List Char) (v : Item) :
    (dictInsert m k v).map Prod.fst =
      if m.any (fun p => p.1 = k) then m.map Prod.fst else m.map Prod.fst ++ [k] := by
  by_cases h : m.any (fun p => p.1 = k) = true
  · rw [dictInsert_of_any v h, if_pos h]
    induction m with
    | nil => rfl
    | cons q m' ih =>
      simp only [List.any_cons, Bool.or_eq_true] at h
      by_cases hq : q.1 = k
      · simp only [List.map_cons, if_pos hq]
        by_cases h' : m'.any (fun p => p.1 = k) = true
        · rw [ih h']
          simp [hq]
        · rw [map_replace_id v (Bool.eq_false_iff.mpr h')]
          simp [hq]
      · have h' : m'.any (fun p => p.1 = k) = true := by
          rcases h with h | h
          · exact absurd (by simpa using h) hq
          · exact h
        simp only [List.map_cons, if_neg hq]
        rw [ih h']
  · have h' : m.any (fun p => p.1 = k) = false := Bool.eq_false_iff.mpr h
    rw [dictInsert_of_not_any v h', if_neg h]
    simp

theorem buildItems_nodup : ∀ (ms : List (List Char × List Char × List Char))
    (acc m : List (List Char × Item)), buildItems ms acc = .ok m →
    (acc.map Prod.fst).Nodup → (m.map Prod.fst).Nodup
  | [], acc, m, h, hnd => by
    rw [buildItems_nil] at h
    cases h
    exact hnd
  | (s, c, e) :: rest, acc, m, h, hnd => by
    rw [buildItems_cons] at h
    split at h
    · refine buildItems_nodup rest _ m h ?_
      rw [dictInsert_keys]
      by_cases hany : acc.any (fun p => p.1 = s) = true
      · rw [if_pos hany]
        exact hnd
      · have h' : acc.any (fun p => p.1 = s) = false := Bool.eq_false_iff.mpr hany
        rw [if_neg (by simp [h'])]
        rw [List.nodup_append]
        exact ⟨hnd, by simp, by simpa using any_key_false_not_mem h'⟩
    · simp at h

theorem buildItems_mem : ∀ (ms : List (List Char × List Char × List Char))
    (acc m : List (List Char × Item)), buildItems ms acc = .ok m →
    ∀ p ∈ m, p ∈ acc ∨ ∃ raw, (p.1, raw, p.1) ∈ ms ∧
      p.2 = Item.mk p.1 (some (extractContent raw)) (containsSeq (done_key p.1) (extractContent raw))
  | [], acc, m, h, p, hp => by
    rw [buildItems_nil] at h
    cases h
    exact Or.inl hp
  | (s, c, e) :: rest, acc, m, h, p, hp => by
    rw [buildItems_cons] at h
    split at h
    · next hse =>
      rcases buildItems_mem rest _ m h p hp with hin | ⟨raw, hraw, heq⟩
      · rcases dictInsert_mem hin with hin | heq
        · exact Or.inl hin
        · refine Or.inr ⟨c, ?_, ?_⟩
          · rw [heq]
            simp only
            subst hse
            exact List.mem_cons_self _ _
          · rw [heq]
      · exact Or.inr ⟨raw, List.mem_cons_of_mem _ hraw, heq⟩
    · simp at h

theorem scanFuel_keyWF : ∀ (fuel : Nat) (s : List Char) (k c e : List Char),
    (k, c, e) ∈ scanFuel fuel s → keyWF k = true
  | 0, s, k, c, e, h => by simp [scanFuel] at h
  | fuel + 1, s, k, c, e, h => by
    rw [scanFuel_succ] at h
    cases hm : matchAt s with
    | some x =>
      obtain ⟨k', c', e', rest⟩ := x
      rw [hm] at h
      dsimp only at h
      rcases List.mem_cons.1 h with h | h
      · obtain ⟨h1, h2, h3⟩ := Prod.mk.injEq .. ▸ h
        subst h1
        exact (matchAt_some hm).2.1
      · exact scanFuel_keyWF fuel rest k c e h
    | none =>
      rw [hm] at h
      cases s with
      | nil => simp at h
      | cons a as => exact scanFuel_keyWF fuel as k c e h

theorem scanBody_keyWF {s k c e : List Char} (h : (k, c, e) ∈ scanBody s) :
    keyWF k = true :=
  scanFuel_keyWF s.length s k c e h

theorem dropWhile_head {p : Char → Bool} : ∀ {l : List Char} {c : Char},
    (l.dropWhile p).head? = some c → p c = false
  | [], c, h => by simp at h
  | a :: as, c, h => by
    by_cases hp : p a = true
    · rw [List.dropWhile_cons_of_pos hp] at h
      exact dropWhile_head h
    · rw [List.dropWhile_cons_of_neg (by simpa using hp)] at h
      simp only [List.head?_cons, Option.some.injEq] at h
      subst h
      simpa using hp

theorem extractContent_head {raw : List Char} {c : Char}
    (h : (extractContent raw).head? = some c) : c ≠ '*' := by
  have hns : isStarSpace c = false := dropWhile_head h
  simp only [isStarSpace, Bool.or_eq_false_iff, decide_eq_false_iff_not] at hns
  exact hns.1

/-- Every map produced by the section parser whose texts are trim-stable
and delimiter-free satisfies the round-trip conditions. -/
theorem parse_good {body : List Char} {m : List (List Char × Item)}
    (h : parseSections body = .ok m)
    (hs : ∀ p ∈ m, ∀ t, p.2.text = some t → pyStrip t = t ∧ containsSeq mark t = false) :
    goodMap m := by
  unfold parseSections at h
  constructor
  · exact buildItems_nodup _ _ _ h (by simp)
  · intro p hp
    rcases buildItems_mem _ _ _ h p hp with hin | ⟨raw, hraw, heq⟩
    · simp at hin
    · have htext : p.2.text = some (extractContent raw) := by rw [heq]
      have hkey : p.2.key = p.1 := by rw [heq]
      have hdone : p.2.is_done = containsSeq (done_key p.1) (extractContent raw) := by rw [heq]
      have hkwf : keyWF p.1 = true := scanBody_keyWF hraw
      obtain ⟨hstable, hmark⟩ := hs p hp (extractContent raw) htext
      have htof : textOf p.2 = extractContent raw := by rw [textOf, htext]; rfl
      refine ⟨hkey, hkwf, ?_, ?_, ?_, ?_, ?_⟩
      · rw [htext, htof]
      · rw [htof]; exact hstable
      · rw [htof]
        intro hc
        exact extractContent_head hc rfl
      · rw [htof]; exact hmark
      · rw [hdone, htof]

theorem buildItems_ok : ∀ (ms : List (List Char × List Char × List Char))
    (acc : List (List Char × Item)), (∀ x ∈ ms, x.1 = x.2.2) →
    ∃ m, buildItems ms acc = .ok m ∧
      ∀ k, ((∃ it, dictLookup acc k = some it) ∨ ∃ c e, (k, c, e) ∈ ms) →
        ∃ it, dictLookup m k = some it
  | [], acc, _ => ⟨acc, rfl, fun k hk => by
      rcases hk with h | ⟨c, e, h⟩
      · exact h
      · simp at h⟩
  | (s, c, e) :: rest, acc, hall => by
    have hse : s = e := hall (s, c, e) (by simp)
    obtain ⟨m, hm, hmem⟩ := buildItems_ok rest
      (dictInsert acc s (Item.mk s (some (extractContent c))
        (containsSeq (done_key s) (extractContent c))))
      (fun x hx => hall x (by simp [hx]))
    refine ⟨m, ?_, ?_⟩
    · rw [buildItems_cons, if_pos hse]
      exact hm
    · intro k hk
      apply hmem k
      rcases hk with ⟨it, hit⟩ | ⟨c', e', hmem'⟩
      · left
        rw [dictLookup_insert]
        by_cases hks : k = s
        · exact ⟨_, by rw [if_pos hks]⟩
        · exact ⟨it, by rw [if_neg hks]; exact hit⟩
      · rcases List.mem_cons.1 hmem' with hh | hh
        · left
          obtain ⟨h1, _, _⟩ := Prod.mk.injEq .. ▸ hh
          subst h1
          exact ⟨_, by rw [dictLookup_insert, if_pos rfl]⟩
        · right
          exact ⟨c', e', hh⟩

theorem find_bot_comment_nil (bot : List Char) : find_bot_comment [] bot = none := rfl

theorem find_bot_comment_cons (c : Comment) (cs : List Comment) (bot : List Char) :
    find_bot_comment (c :: cs) bot =
      if c.author = bot && containsSeq BOT_COMMENT_START c.body then some c
      else find_bot_comment cs bot := rfl

theorem is_done_eq (comments : List Comment) (bot key : List Char) :
    is_done comments bot key =
      match find_existing_body comments bot with
      | .error e => .error e
      | .ok body =>
        match dictLookup body key with
        | none => .ok false
        | some it => .ok it.is_done := rfl

/-- C2: for every comment body containing a delimited section whose
start-marker key differs from its end-marker key, the section parser
fails with a structural error and returns no mapping. -/
theorem c2_mismatch_error (body s c e : List Char) (hmem : (s, c, e) ∈ scanBody body)
    (hne : s ≠ e) : ∃ msg, parseSections body = .error msg := by
  unfold parseSections
  exact buildItems_error _ _ ⟨(s, c, e), hmem, hne⟩

theorem c2_mismatch_error_witness :
    (("foo".data, "x".data, "bar".data) ∈
      scanBody "<!--bot-comment-foo-start-->x<!--bot-comment-bar-end-->".data) ∧
    ("foo".data : List Char) ≠ "bar".data ∧
    ∃ msg, parseSections "<!--bot-comment-foo-start-->x<!--bot-comment-bar-end-->".data =
      .error msg :=
  ⟨by decide, by decide,
    c2_mismatch_error "<!--bot-comment-foo-start-->x<!--bot-comment-bar-end-->".data
      "foo".data "x".data "bar".data (by decide) (by decide)⟩

/-- C3: when posting is not suppressed, `_post_comment` issues exactly one
create action carrying the rendered body when no bot comment exists, and
exactly one update action addressed by the existing comment's database id
and carrying the rendered body when one exists. -/
theorem c3_create_or_update (opt_out : List (List Char)) (skip_comment : Bool)
    (author : List Char) (pr : Nat) (comments : List Comment) (bot : List Char)
    (items : List (List Char × Item))
    (hopt : opt_out.any (fun u => u = author) = false) (hskip : skip_comment = false) :
    (find_bot_comment comments bot = none →
      post_comment opt_out skip_comment author pr comments bot items =
        PostAction.create pr (renderComment items)) ∧
    (∀ c, find_bot_comment comments bot = some c →
      post_comment opt_out skip_comment author pr comments bot items =
        PostAction.update c.databaseId (renderComment items)) := by
  subst hskip
  constructor
  · intro hnone
    unfold post_comment
    rw [if_neg (by simp [hopt]), if_neg (by simp), hnone]
  · intro c hc
    unfold post_comment
    rw [if_neg (by simp [hopt]), if_neg (by simp), hc]

theorem c3_create_or_update_witness :
    (([] : List (List Char)).any (fun u => u = "alice".data) = false) ∧
    find_bot_comment [] "tvm-bot".data = none ∧
    post_comment [] false "alice".data 7 [] "tvm-bot".data [] =
      PostAction.create 7 (renderComment []) :=
  ⟨by decide, by decide,
    (c3_create_or_update [] false "alice".data 7 [] "tvm-bot".data [] (by decide) rfl).1
      (by decide)⟩

/-- C4: when the author is in the opt-out set or the skip-commenting
switch is active, `_post_comment` performs no create or update action. -/
theorem c4_suppressed (opt_out : List (List Char)) (skip_comment : Bool)
    (author : List Char) (pr : Nat) (comments : List Comment) (bot : List Char)
    (items : List (List Char × Item))
    (h : opt_out.any (fun u => u = author) = true ∨ skip_comment = true) :
    post_comment opt_out skip_comment author pr comments bot items = PostAction.skip := by
  unfold post_comment
  rcases h with h | h
  · rw [if_pos (by simp [h])]
  · by_cases hopt : opt_out.any (fun u => u = author) = true
    · rw [if_pos (by simp [hopt])]
    · rw [if_neg (by simpa using hopt), if_pos (by simp [h])]

theorem c4_suppressed_witness :
    (["bob".data].any (fun u => u = "bob".data) = true ∨ false = true) ∧
    post_comment ["bob".data] false "bob".data 1 [] "tvm-bot".data
      [("ci".data, Item.mk "ci".data (some "hello".data) false)] = PostAction.skip :=
  ⟨Or.inl (by decide),
    c4_suppressed ["bob".data] false "bob".data 1 [] "tvm-bot".data
      [("ci".data, Item.mk "ci".data (some "hello".data) false)] (Or.inl (by decide))⟩

/-- C5: an update item whose text is absent or blank after trimming is
skipped by the merge: removing it from the supplied list does not change
the merge result, and merging it alone leaves the map's entry for its key
exactly as parsed. -/
theorem c5_blank_skipped (it : Item)
    (hblank : it.text = none ∨ ∀ t, it.text = some t → pyStrip t = []) :
    ∀ (m : List (List Char × Item)) (pre post : List Item),
      mergeItems m (pre ++ it :: post) = mergeItems m (pre ++ post) ∧
      dictLookup (mergeItems m [it]) it.key = dictLookup m it.key := by
  have hstep : ∀ (m : List (List Char × Item)) (rest : List Item),
      mergeItems m (it :: rest) = mergeItems m rest := by
    intro m rest
    rw [mergeItems_cons]
    cases htext : it.text with
    | none => rfl
    | some t =>
      have hb : pyStrip t = [] := by
        rcases hblank with h | h
        · rw [htext] at h
          simp at h
        · exact h t htext
      dsimp only
      rw [if_pos hb]
  intro m pre post
  constructor
  · induction pre generalizing m with
    | nil => simpa using hstep m post
    | cons q pre' ih =>
      rw [List.cons_append, List.cons_append, mergeItems_cons, mergeItems_cons]
      cases hq : q.text with
      | none => exact ih _
      | some t =>
        dsimp only
        by_cases hb : pyStrip t = []
        · rw [if_pos hb, if_pos hb]
          exact ih _
        · rw [if_neg hb, if_neg hb]
          exact ih _
  · rw [hstep m [], mergeItems_nil]

theorem c5_blank_skipped_witness :
    ((Item.mk "ci".data (some "  ".data) true).text = none ∨
      ∀ t, (Item.mk "ci".data (some "  ".data) true).text = some t → pyStrip t = []) ∧
    mergeItems [("ci".data, Item.mk "ci".data (some "old".data) false)]
        ([Item.mk "docs".data (some "d".data) false] ++
          Item.mk "ci".data (some "  ".data) true :: []) =
      mergeItems [("ci".data, Item.mk "ci".data (some "old".data) false)]
        ([Item.mk "docs".data (some "d".data) false] ++ []) ∧
    dictLookup (mergeItems [("ci".data, Item.mk "ci".data (some "old".data) false)]
        [Item.mk "ci".data (some "  ".data) true]) "ci".data =
      dictLookup [("ci".data, Item.mk "ci".data (some "old".data) false)] "ci".data := by
  have hblank : (Item.mk "ci".data (some "  ".data) true).text = none ∨
      ∀ t, (Item.mk "ci".data (some "  ".data) true).text = some t → pyStrip t = [] :=
    Or.inr (fun t ht => by
      simp only [Option.some.injEq] at ht
      subst ht
      decide)
  have happ := c5_blank_skipped (Item.mk "ci".data (some "  ".data) true) hblank
    [("ci".data, Item.mk "ci".data (some "old".data) false)]
    [Item.mk "docs".data (some "d".data) false] []
  exact ⟨hblank, happ.1, happ.2⟩

/-- C9: locating the bot comment returns the first comment in iteration
order authored by the bot whose body contains the sentinel, and none when
no comment qualifies. -/
theorem c9_find_first (cs : List Comment) (bot : List Char) :
    (∀ c, find_bot_comment cs bot = some c ↔
      ∃ pre post, cs = pre ++ c :: post ∧
        (c.author = bot && containsSeq BOT_COMMENT_START c.body) = true ∧
        ∀ x ∈ pre, (x.author = bot && containsSeq BOT_COMMENT_START x.body) = false) ∧
    (find_bot_comment cs bot = none ↔
      ∀ x ∈ cs, (x.author = bot && containsSeq BOT_COMMENT_START x.body) = false) := by
  induction cs with
  | nil =>
    constructor
    · intro c
      constructor
      · intro h
        rw [find_bot_comment_nil] at h
        exact Option.noConfusion h
      · rintro ⟨pre, post, habs, -, -⟩
        cases pre <;> simp at habs
    · constructor
      · intro _ x hx
        simp at hx
      · intro _
        rfl
  | cons a as ih =>
    by_cases ha : (a.author = bot && containsSeq BOT_COMMENT_START a.body) = true
    · constructor
      · intro c
        rw [find_bot_comment_cons, if_pos ha]
        constructor
        · intro h
          have hac : a = c := by simpa using h
          subst hac
          exact ⟨[], as, rfl, ha, by simp⟩
        · rintro ⟨pre, post, heq, hc, hpre⟩
          cases pre with
          | nil =>
            simp only [List.nil_append, List.cons.injEq] at heq
            rw [heq.1]
          | cons q pre' =>
            simp only [List.cons_append, List.cons.injEq] at heq
            have := hpre q (by simp)
            rw [heq.1] at ha
            rw [ha] at this
            exact Bool.noConfusion this
      · constructor
        · intro h
          rw [find_bot_comment_cons, if_pos ha] at h
          exact Option.noConfusion h
        · intro h
          have := h a (by simp)
          rw [ha] at this
          exact Bool.noConfusion this
    · have ha' : (a.author = bot && containsSeq BOT_COMMENT_START a.body) = false :=
        Bool.eq_false_iff.mpr ha
      constructor
      · intro c
        rw [find_bot_comment_cons, if_neg ha]
        constructor
        · intro h
          obtain ⟨pre, post, heq, hc, hpre⟩ := (ih.1 c).1 h
          refine ⟨a :: pre, post, by rw [heq, List.cons_append], hc, ?_⟩
          intro x hx
          rcases List.mem_cons.1 hx with hx | hx
          · rw [hx]
            exact ha'
          · exact hpre x hx
        · rintro ⟨pre, post, heq, hc, hpre⟩
          cases pre with
          | nil =>
            simp only [List.nil_append, List.cons.injEq] at heq
            rw [← heq.1] at hc
            rw [hc] at ha'
            exact Bool.noConfusion ha'
          | cons q pre' =>
            simp only [List.cons_append, List.cons.injEq] at heq
            refine (ih.1 c).2 ⟨pre', post, heq.2, hc, ?_⟩
            intro x hx
            exact hpre x (by simp [hx])
      · rw [find_bot_comment_cons, if_neg ha]
        constructor
        · intro h x hx
          rcases List.mem_cons.1 hx with hx | hx
          · rw [hx]
            exact ha'
          · exact (ih.2.1 h) x hx
        · intro h
          exact ih.2.2 (fun x hx => h x (by simp [hx]))

/-- C10: when the existing body parses to a map, `is_done` returns false
for keys absent from the map and the stored flag for present keys, and it
returns false when no bot comment exists at all. -/
theorem c10_is_done (comments : List Comment) (bot key : List Char) :
    (∀ m, find_existing_body comments bot = .ok m →
      (dictLookup m key = none → is_done comments bot key = .ok false) ∧
      (∀ it, dictLookup m key = some it → is_done comments bot key = .ok it.is_done)) ∧
    (find_bot_comment comments bot = none → is_done comments bot key = .ok false) := by
  constructor
  · intro m hm
    constructor
    · intro hl
      rw [is_done_eq, hm]
      dsimp only
      rw [hl]
    · intro it hl
      rw [is_done_eq, hm]
      dsimp only
      rw [hl]
  · intro hn
    have hok : find_existing_body comments bot = .ok [] := by
      unfold find_existing_body
      rw [hn]
    rw [is_done_eq, hok]
    rfl

theorem c10_is_done_witness :
    find_existing_body
        [Comment.mk "tvm-bot".data 5
          "<!---bot-comment-->\n<!--bot-comment-ci-start-->ok<!--bot-comment-ci-end-->".data]
        "tvm-bot".data =
      .ok [("ci".data, Item.mk "ci".data (some "ok".data) false)] ∧
    dictLookup [("ci".data, Item.mk "ci".data (some "ok".data) false)] "docs".data = none ∧
    is_done
      [Comment.mk "tvm-bot".data 5
        "<!---bot-comment-->\n<!--bot-comment-ci-start-->ok<!--bot-comment-ci-end-->".data]
      "tvm-bot".data "docs".data = .ok false :=
  ⟨by decide, by decide,
    ((c10_is_done
      [Comment.mk "tvm-bot".data 5
        "<!---bot-comment-->\n<!--bot-comment-ci-start-->ok<!--bot-comment-ci-end-->".data]
      "tvm-bot".data "docs".data).1
      [("ci".data, Item.mk "ci".data (some "ok".data) false)] (by decide)).1 (by decide)⟩

/-- C1 counterexample: a map sending key ci to the text asterisk-x, which
contains no delimiter literal and is already trimmed, renders and
re-parses to a map whose stored text lost its leading asterisk, so the
round trip fails as stated. -/
theorem c1_counterexample :
    containsSeq mark "*x".data = false ∧
    pyStrip "*x".data = "*x".data ∧
    parseSections (renderComment [("ci".data, Item.mk "ci".data (some "*x".data) false)]) =
      .ok [("ci".data, Item.mk "ci".data (some "x".data) false)] ∧
    ("x".data : List Char) ≠ "*x".data := by
  decide

/-- C1 amended: for every section map with distinct keys of shape
[a-z][a-z-]+ whose items carry their map key and a present trim-stable
text that does not begin with an asterisk and does not contain the
delimiter literal, and whose done flag equals whether the text contains
that key's done sentinel, rendering the map and then parsing the rendered
body reproduces the same map: same keys, same texts, same done flags. -/
theorem c1_round_trip (m : List (List Char × Item)) (hm : goodMap m) :
    parseSections (renderComment m) = Except.ok m :=
  render_parse hm

theorem c1_round_trip_witness :
    goodMap [("ci".data, Item.mk "ci".data (some "hello".data) false)] ∧
    parseSections (renderComment [("ci".data, Item.mk "ci".data (some "hello".data) false)]) =
      .ok [("ci".data, Item.mk "ci".data (some "hello".data) false)] :=
  ⟨by decide, c1_round_trip [("ci".data, Item.mk "ci".data (some "hello".data) false)] (by decide)⟩

/-- C6 counterexample: the comment body whose section content is
asterisk-tab-x parses to a map storing tab-x; merging the empty list
leaves it unchanged, but re-rendering trims the tab, so re-parsing yields
a different map. -/
theorem c6_counterexample :
    parseSections "<!--bot-comment-ci-start-->*\tx<!--bot-comment-ci-end-->".data =
      .ok [("ci".data, Item.mk "ci".data (some "\tx".data) false)] ∧
    mergeItems [("ci".data, Item.mk "ci".data (some "\tx".data) false)] [] =
      [("ci".data, Item.mk "ci".data (some "\tx".data) false)] ∧
    parseSections (renderComment (mergeItems
        [("ci".data, Item.mk "ci".data (some "\tx".data) false)] [])) =
      .ok [("ci".data, Item.mk "ci".data (some "x".data) false)] ∧
    ([("ci".data, Item.mk "ci".data (some "x".data) false)] : List (List Char × Item)) ≠
      [("ci".data, Item.mk "ci".data (some "\tx".data) false)] := by
  decide

/-- C6 amended: merging an empty update list into a parsed section map
yields that map unchanged, and, provided every parsed text is trim-stable
and free of the delimiter literal, rendering the result and parsing it
again yields the same map once more. -/
theorem c6_idempotent {body : List Char} {m : List (List Char × Item)}
    (h : parseSections body = .ok m)
    (hs : ∀ p ∈ m, ∀ t, p.2.text = some t → pyStrip t = t ∧ containsSeq mark t = false) :
    mergeItems m [] = m ∧
    parseSections (renderComment (mergeItems m [])) = .ok m := by
  refine ⟨mergeItems_nil m, ?_⟩
  rw [mergeItems_nil]
  exact render_parse (parse_good h hs)

theorem c6_idempotent_witness :
    parseSections "<!--bot-comment-ci-start-->\n * hello<!--bot-comment-ci-end-->".data =
      .ok [("ci".data, Item.mk "ci".data (some "hello".data) false)] ∧
    mergeItems [("ci".data, Item.mk "ci".data (some "hello".data) false)] [] =
      [("ci".data, Item.mk "ci".data (some "hello".data) false)] ∧
    parseSections (renderComment (mergeItems
        [("ci".data, Item.mk "ci".data (some "hello".data) false)] [])) =
      .ok [("ci".data, Item.mk "ci".data (some "hello".data) false)] := by
  have hidem := @c6_idempotent
    "<!--bot-comment-ci-start-->\n * hello<!--bot-comment-ci-end-->".data
    [("ci".data, Item.mk "ci".data (some "hello".data) false)]
    (by decide)
    (by
      intro p hp t ht
      simp only [List.mem_singleton] at hp
      subst hp
      have ht' : "hello".data = t := by simpa using ht
      subst ht'
      exact ⟨by decide, by decide⟩)
  exact ⟨by decide, hidem.1, hidem.2⟩

/-- C7 counterexample: for the raw content star-space-star-space-x,
removing a single bullet prefix after trimming would give star-space-x,
but the parser stores just x: it removes every leading asterisk and
space, not one bullet prefix. -/
theorem c7_counterexample :
    scanBody "<!--bot-comment-ci-start-->* * x<!--bot-comment-ci-end-->".data =
      [("ci".data, "* * x".data, "ci".data)] ∧
    specStoredText "* * x".data = "* x".data ∧
    parseSections "<!--bot-comment-ci-start-->* * x<!--bot-comment-ci-end-->".data =
      .ok [("ci".data, Item.mk "ci".data (some "x".data) false)] ∧
    ("x".data : List Char) ≠ "* x".data := by
  decide

/-- C7 amended: every entry of a successfully parsed section map stores
the text obtained from its raw matched content by stripping leading and
trailing whitespace and then removing every leading asterisk or space;
no other characters are removed. -/
theorem c7_stored_text {body : List Char} {m : List (List Char × Item)}
    (h : parseSections body = .ok m) :
    ∀ p ∈ m, ∃ raw, (p.1, raw, p.1) ∈ scanBody body ∧
      p.2.text = some ((pyStrip raw).dropWhile isStarSpace) := by
  unfold parseSections at h
  intro p hp
  rcases buildItems_mem _ _ _ h p hp with hin | ⟨raw, hraw, heq⟩
  · simp at hin
  · refine ⟨raw, hraw, ?_⟩
    rw [heq]
    rfl

theorem c7_stored_text_witness :
    ∃ raw, (("ci".data : List Char), raw, ("ci".data : List Char)) ∈
        scanBody "<!--bot-comment-ci-start-->* * x<!--bot-comment-ci-end-->".data ∧
      (Item.mk "ci".data (some "x".data) false).text =
        some ((pyStrip raw).dropWhile isStarSpace) :=
  @c7_stored_text "<!--bot-comment-ci-start-->* * x<!--bot-comment-ci-end-->".data
    [("ci".data, Item.mk "ci".data (some "x".data) false)] (by decide)
    ("ci".data, Item.mk "ci".data (some "x".data) false) (by decide)

/-- C8 counterexample: the single-character key x is drawn from the class
of lowercase letters and hyphens, yet its delimited section is not
recognized: the scan finds nothing and parsing yields no entry for it. -/
theorem c8_counterexample :
    (∀ ch ∈ ("x".data : List Char), isKeyChar ch = true) ∧
    scanBody "<!--bot-comment-x-start-->hi<!--bot-comment-x-end-->".data = [] ∧
    parseSections "<!--bot-comment-x-start-->hi<!--bot-comment-x-end-->".data = .ok [] ∧
    dictLookup [] "x".data = none := by
  decide

/-- C8 amended: for every list of sections whose keys match
[a-z][a-z-]+ (a lowercase letter followed by at least one more lowercase
letter or hyphen) and whose contents do not contain the delimiter
literal, scanning the concatenation of their delimited forms recognizes
exactly those sections, and parsing succeeds with an entry for every
listed key. -/
theorem c8_sections (l : List (List Char × List Char))
    (hl : ∀ p ∈ l, keyWF p.1 = true ∧ containsSeq mark p.2 = false) :
    scanBody (sectionsConcat l) = l.map (fun p => (p.1, p.2, p.1)) ∧
    ∃ m, parseSections (sectionsConcat l) = .ok m ∧
      ∀ p ∈ l, ∃ it, dictLookup m p.1 = some it := by
  have hscan : scanBody (sectionsConcat l) = l.map (fun p => (p.1, p.2, p.1)) := by
    have htail := scanBody_sections l [] hl (by decide)
    simpa using htail
  refine ⟨hscan, ?_⟩
  unfold parseSections
  rw [hscan]
  obtain ⟨m, hm, hmem⟩ := buildItems_ok (l.map (fun p => (p.1, p.2, p.1))) []
    (fun x hx => by
      obtain ⟨p, hp, hfx⟩ := List.mem_map.1 hx
      subst hfx
      rfl)
  refine ⟨m, hm, fun p hp => hmem p.1 (Or.inr ⟨p.2, p.1, List.mem_map.2 ⟨p, hp, rfl⟩⟩)⟩

theorem c8_sections_witness :
    (∀ p ∈ ([("ci".data, "hello".data)] : List (List Char × List Char)),
      keyWF p.1 = true ∧ containsSeq mark p.2 = false) ∧
    (scanBody (sectionsConcat [("ci".data, "hello".data)]) =
        [("ci".data, "hello".data, "ci".data)] ∧
      ∃ m, parseSections (sectionsConcat [("ci".data, "hello".data)]) = .ok m ∧
        ∀ p ∈ ([("ci".data, "hello".data)] : List (List Char × List Char)),
          ∃ it, dictLookup m p.1 = some it) := by
  have hc8 := c8_sections [("ci".data, "hello".data)] (by decide)
  exact ⟨by decide, by simpa using hc8⟩

theorem c9_find_first_witness :
    find_bot_comment
        [Comment.mk "alice".data 1 "hi".data,
          Comment.mk "tvm-bot".data 2 "<!---bot-comment-->x".data] "tvm-bot".data =
      some (Comment.mk "tvm-bot".data 2 "<!---bot-comment-->x".data) :=
  ((c9_find_first
      [Comment.mk "alice".data 1 "hi".data,
        Comment.mk "tvm-bot".data 2 "<!---bot-comment-->x".data] "tvm-bot".data).1
    (Comment.mk "tvm-bot".data 2 "<!---bot-comment-->x".data)).2
    ⟨[Comment.mk "alice".data 1 "hi".data], [], rfl, by decide, by decide⟩
